/-
  Verification of the string-hash subsystem of `src/lj_str_hash.c`.

  The C code is shallowly embedded: machine integers become `Nat` with
  explicit reductions `% 2^32` / `% 2^64` at the points where the C code
  truncates; a byte buffer becomes a function `Nat → Nat` whose values are
  reduced `% 256` at each byte read (matching the `uint8_t` casts in the
  source); the `random()` stream of the C library becomes an arbitrary
  function `Nat → Nat` giving the value of the i-th call.
-/
import Mathlib

namespace LjStrHash

/-- 2^32, the modulus of `uint32_t` arithmetic. -/
def M32 : Nat := 4294967296

/-- 2^64, the modulus of `uint64_t` arithmetic. -/
def M64 : Nat := 18446744073709551616

/-- `uint32_t` subtraction: `x - y` modulo 2^32. -/
def sub32 (x y : Nat) : Nat := (x + (M32 - y % M32)) % M32

/-- `lj_rol(x, n)`: rotate a 32-bit value left by `n` (0 < n < 32). -/
def lj_rol (x n : Nat) : Nat := (x % M32) / 2 ^ (32 - n) + (x % M32) % 2 ^ (32 - n) * 2 ^ n

/-- A byte read `*(const uint8_t*)(str + i)`: the buffer byte reduced to 8 bits. -/
def byteAt (s : Nat → Nat) (i : Nat) : Nat := s i % 256

/-- `*cast_uint32p(str + off)`: little-endian 4-byte word read at `off`. -/
def readU32 (s : Nat → Nat) (off : Nat) : Nat :=
  byteAt s off + 256 * byteAt s (off + 1) + 65536 * byteAt s (off + 2) +
    16777216 * byteAt s (off + 3)

/-- `*cast_uint64p(str + off)`: little-endian 8-byte word read at `off`. -/
def readU64 (s : Nat → Nat) (off : Nat) : Nat :=
  byteAt s off + 256 * byteAt s (off + 1) + 65536 * byteAt s (off + 2) +
    16777216 * byteAt s (off + 3) + 4294967296 * byteAt s (off + 4) +
    1099511627776 * byteAt s (off + 5) + 281474976710656 * byteAt s (off + 6) +
    72057594037927936 * byteAt s (off + 7)

/-- The reflected CRC-32C polynomial 0x82F63B78 used by the SSE4.2 / ARMv8
    `crc32` instructions behind `lj_crc32_u32` / `lj_crc32_u64`. -/
def crcPoly : Nat := 2197175160

/-- One bit-step of the reflected CRC-32C computation. -/
def crcRound (c : Nat) : Nat := if c % 2 = 1 then c / 2 ^^^ crcPoly else c / 2

/-- Accumulate one byte (low 8 bits of `b`) into the CRC accumulator. -/
def crcByte (c b : Nat) : Nat := crcRound^[8] (c ^^^ b % 256)

/-- `lj_crc32_u32(crc, v)`: accumulate the 4 bytes of `v`, low byte first. -/
def lj_crc32_u32 (crc v : Nat) : Nat :=
  crcByte (crcByte (crcByte (crcByte (crc % M32) v) (v / 256)) (v / 65536)) (v / 16777216)

/-- `lj_crc32_u64(crc, v)`: accumulate the 8 bytes of `v`, low byte first.
    Only the low 32 bits of the incoming accumulator participate, and the
    result is a 32-bit value zero-extended to 64 bits. -/
def lj_crc32_u64 (crc v : Nat) : Nat :=
  lj_crc32_u32 (lj_crc32_u32 crc v) (v / 4294967296)

/-- `lj_str_hash_1_4` (the enabled `#else` branch): hash a string of length
    in [1, 4) from its first, middle and last byte and the length. -/
def lj_str_hash_1_4 (s : Nat → Nat) (len : Nat) : Nat :=
  let h := len % M32
  let a := byteAt s 0
  let h := h ^^^ byteAt s (len - 1)
  let b := byteAt s (len / 2)
  let h := h ^^^ b
  let h := sub32 h (lj_rol b 14)
  let a := a ^^^ h
  let a := sub32 a (lj_rol h 11)
  let b := b ^^^ a
  let b := sub32 b (lj_rol a 25)
  let h := h ^^^ b
  let h := sub32 h (lj_rol b 16)
  h

/-- `lj_str_hash_4_16`: hash a string of length in [4, 16) from the length
    and two word reads, one anchored at the start, one at the end. -/
def lj_str_hash_4_16 (s : Nat → Nat) (len : Nat) : Nat :=
  let v1 := if 8 ≤ len then readU64 s 0 else readU32 s 0
  let v2 := if 8 ≤ len then readU64 s (len - 8) else readU32 s (len - 4)
  let h := lj_crc32_u32 0 (len % M32)
  let h := lj_crc32_u64 h v1
  let h := lj_crc32_u64 h v2
  h

/-- The stride loop of `lj_str_hash_16_128`:
    `for (i = 0; i < len - 16; i += 16) { h1 += crc(h1, w(i)); h2 += crc(h2, w(i+8)); }`.
    `bound` is `len - 16`; the `+=` accumulations are `uint64_t`. The first
    argument is recursion fuel: since `i` grows by 16 per iteration, any
    fuel ≥ `bound` makes the fuel-exhausted case unreachable, and the loop
    is always entered with fuel = `bound`. -/
def hash16Loop (s : Nat → Nat) (bound : Nat) : Nat → Nat → Nat → Nat → Nat × Nat
  | 0, _, h1, h2 => (h1, h2)
  | fuel + 1, i, h1, h2 =>
    if i < bound then
      hash16Loop s bound fuel (i + 16) ((h1 + lj_crc32_u64 h1 (readU64 s i)) % M64)
        ((h2 + lj_crc32_u64 h2 (readU64 s (i + 8))) % M64)
    else (h1, h2)

/-- The two tail folds of `lj_str_hash_16_128` (source lines
    `h1 = lj_crc32_u64(h1, *cast_uint64p(str + len - 16));`
    `h2 = lj_crc32_u64(h2, *cast_uint64p(str + len - 8));`):
    the first accumulator absorbs the word at `len - 16`, the second the
    word at `len - 8`. -/
def hash16Tail (s : Nat → Nat) (len : Nat) (p : Nat × Nat) : Nat × Nat :=
  (lj_crc32_u64 p.1 (readU64 s (len - 16)), lj_crc32_u64 p.2 (readU64 s (len - 8)))

/-- The tail folds as the specification describes them: the buffer's last 8
    bytes (word at `len - 8`) folded into the first accumulator `h1`, the 8
    bytes before them (word at `len - 16`) folded into the second
    accumulator `h2`. -/
def hash16TailSpec (s : Nat → Nat) (len : Nat) (p : Nat × Nat) : Nat × Nat :=
  (lj_crc32_u64 p.1 (readU64 s (len - 8)), lj_crc32_u64 p.2 (readU64 s (len - 16)))

/-- `lj_str_hash_16_128`: hash a string of length in [16, 128). -/
def lj_str_hash_16_128 (s : Nat → Nat) (len : Nat) : Nat :=
  let h1 := lj_crc32_u32 0 (len % M32)
  let h2 := 0
  let p := hash16Loop s (len - 16) (len - 16) 0 h1 h2
  let q := hash16Tail s len p
  lj_crc32_u32 q.1 q.2

/-- `lj_getu32`: the portable 4-byte read used by `lj_str_hash_orig`
    (same little-endian unaligned load as `cast_uint32p` on these targets). -/
def lj_getu32 (s : Nat → Nat) (off : Nat) : Nat := readU32 s off

/-- `lj_str_hash_orig`: the portable fallback hash (Bob Jenkins lookup3
    constants), defined for every length including 0. -/
def lj_str_hash_orig (s : Nat → Nat) (lenx : Nat) : Nat :=
  let len := lenx % M32
  let h := len
  if 4 ≤ len then
    let a := lj_getu32 s 0
    let h := h ^^^ lj_getu32 s (len - 4)
    let b := lj_getu32 s (len / 2 - 2)
    let h := h ^^^ b
    let h := sub32 h (lj_rol b 14)
    let b := (b + lj_getu32 s (len / 4 - 1)) % M32
    let a := a ^^^ h
    let a := sub32 a (lj_rol h 11)
    let b := b ^^^ a
    let b := sub32 b (lj_rol a 25)
    let h := h ^^^ b
    let h := sub32 h (lj_rol b 16)
    h
  else if 0 < len then
    let a := byteAt s 0
    let h := h ^^^ byteAt s (len - 1)
    let b := byteAt s (len / 2)
    let h := h ^^^ b
    let h := sub32 h (lj_rol b 14)
    let a := a ^^^ h
    let a := sub32 a (lj_rol h 11)
    let b := b ^^^ a
    let b := sub32 b (lj_rol a 25)
    let h := h ^^^ b
    let h := sub32 h (lj_rol b 16)
    h
  else 0

/-- The 128-entry `log2_tab` of the source (entry 0 holds -1). -/
def log2_tab : List Int := [-1,0,1,1,2,2,2,2,3,3,3,3,3,3,3,3,4,4,
  4,4,4,4,4,4,4,4,4,4,4,4,4,4,5,5,5,5,5,5,5,5,5,5,5,5,5,5,5,
  5,5,5,5,5,5,5,5,5,5,5,5,5,5,5,5,5,6,6,6,6,6,6,6,6,6,6,6,6,
  6,6,6,6,6,6,6,6,6,6,6,6,6,6,6,6,6,6,6,6,6,6,6,6,6,6,6,6,6,
  6,6,6,6,6,6,6,6,6,6,6,6,6,6,6,6,6,6,6,6,6,6,6]

/-- Conversion of a C `int` value to `uint32_t` (the implicit conversion at
    the `return` of `log2_floor`). -/
def u32ofInt (x : Int) : Nat := (x % (4294967296 : Int)).toNat

/-- `log2_floor(n)`: table-driven floor(log2) for `uint32_t` arguments. -/
def log2_floor (n : Nat) : Nat :=
  if n ≤ 127 then u32ofInt (log2_tab.getD n 0)
  else if n / 256 ≤ 127 then u32ofInt (log2_tab.getD (n / 256) 0 + 8)
  else if n / 65536 ≤ 127 then u32ofInt (log2_tab.getD (n / 65536) 0 + 16)
  else if n / 16777216 ≤ 127 then u32ofInt (log2_tab.getD (n / 16777216) 0 + 24)
  else 31

/-- Update row `i` of the sample-position table with slot values `v0`, `v1`. -/
def updRow (t : Nat → Nat → Nat) (i v0 v1 : Nat) : Nat → Nat → Nat :=
  fun o j => if o = i then (if j % 2 = 0 then v0 else v1) else t o j

/-- The row-filling loops of `lj_str_hash_init_random`: fill rows `i`,
    `i+1`, ..., `i+n-1` of the table `t`, drawing `rand k`, `rand (k+1)`, ...
    from the random stream. Rows below `rml` take a masked raw draw
    (`random() & POW2_MASK(i+1)`); rows at or above `rml` take a draw scaled
    by slot 0 of row `i - rml` (with 0 replaced by 1) before masking. -/
def fillRows (rand : Nat → Nat) (rml : Nat) : Nat → Nat → Nat → (Nat → Nat → Nat) → (Nat → Nat → Nat)
  | 0, _, _, t => t
  | n + 1, i, k, t =>
    let t' :=
      if i < rml then
        updRow t i (rand k &&& (2 ^ (i + 1) - 1)) (rand (k + 1) &&& (2 ^ (i + 1) - 1))
      else
        let scale := if t (i - rml) 0 = 0 then 1 else t (i - rml) 0
        updRow t i (rand k * scale &&& (2 ^ (i + 1) - 1))
          (rand (k + 1) * scale &&& (2 ^ (i + 1) - 1))
    fillRows rand rml n (i + 1) (k + 2) t'

/-- `rml` of `lj_str_hash_init_random`: `ceil(log2(RAND_MAX))`. -/
def randMaxLog (randMax : Nat) : Nat :=
  log2_floor randMax + (if randMax &&& (randMax - 1) ≠ 0 then 1 else 0)

/-- `lj_str_hash_init_random`, parameterized by the `random()` stream and by
    `RAND_MAX`. The static table starts zeroed; rows 0..2 are written with
    zeros; rows 3..30 are filled by the two loops; row 31 is never touched. -/
def lj_str_hash_init_random (rand : Nat → Nat) (randMax : Nat) : Nat → Nat → Nat :=
  fillRows rand (randMaxLog randMax) 28 3 0 (fun _ _ => 0)

/-- The source helper get_random_pos_unsafe(chunk_sz_order, idx): read
    `random_pos[order][idx & 1]` (its name warns that the value may exceed
    the chunk size; the caller must keep the resulting address valid). -/
def getRandomPos (t : Nat → Nat → Nat) (order idx : Nat) : Nat := t order (idx % 2)

/-- The 7-iteration chunk-pair loop of `lj_str_hash_128_above`: `n` iterations
    remain, `base` is the offset of `chunk_ptr` from `str`. -/
def hash128Loop (s : Nat → Nat) (c pos1 pos2 : Nat) : Nat → Nat → Nat → Nat → Nat × Nat
  | 0, _, h1, h2 => (h1, h2)
  | n + 1, base, h1, h2 =>
    hash128Loop s c pos1 pos2 n (base + c)
      (lj_crc32_u64 h1 (readU64 s (base + pos1)))
      (lj_crc32_u64 h2 (readU64 s (base + c + pos2)))

/-- `lj_str_hash_128_above`: hash a string of length ≥ 128 by sampling two
    8-byte words per chunk pair, driven by the sample-position table `t`. -/
def lj_str_hash_128_above (t : Nat → Nat → Nat) (s : Nat → Nat) (len : Nat) : Nat :=
  let chunk_num := 16
  let c := len / chunk_num
  let order := log2_floor c
  let pos1 := getRandomPos t order 0
  let pos2 := getRandomPos t order 1
  let h1 := lj_crc32_u32 0 (len % M32)
  let h2 := 0
  let p := hash128Loop s c pos1 pos2 7 0 h1 h2
  let h1 := lj_crc32_u64 p.1 (readU64 s (7 * c + pos1))
  let h2 := lj_crc32_u64 p.2 (readU64 s (7 * c + c - 8 - pos2))
  let h1 := lj_crc32_u64 h1 (readU64 s 0)
  let h2 := lj_crc32_u64 h2 (readU64 s (len - 8))
  lj_crc32_u32 h1 h2

/-- `lj_str_hash_crc32`: the length-banded dispatcher (len must be nonzero). -/
def lj_str_hash_crc32 (t : Nat → Nat → Nat) (s : Nat → Nat) (len : Nat) : Nat :=
  if len < 128 then
    if 16 ≤ len then lj_str_hash_16_128 s len
    else if 4 ≤ len then lj_str_hash_4_16 s len
    else lj_str_hash_1_4 s len
  else lj_str_hash_128_above t s len

/-! ### Read-access extraction

The following definitions list, for each routine, the `(offset, width)`
memory accesses it performs on the input buffer, mirroring the dereferences
of the source line by line. -/

/-- Byte reads of `lj_str_hash_1_4`: `str[0]`, `str[len-1]`, `str[len>>1]`. -/
def reads_1_4 (len : Nat) : List (Nat × Nat) := [(0, 1), (len - 1, 1), (len / 2, 1)]

/-- Word reads of `lj_str_hash_4_16`: two 8-byte reads when `len ≥ 8`,
    otherwise two 4-byte reads; one anchored at the start, one at the end. -/
def reads_4_16 (len : Nat) : List (Nat × Nat) :=
  if 8 ≤ len then [(0, 8), (len - 8, 8)] else [(0, 4), (len - 4, 4)]

/-- Word reads of the stride loop of `lj_str_hash_16_128`; fueled exactly
    like `hash16Loop`. -/
def reads16Loop (bound : Nat) : Nat → Nat → List (Nat × Nat)
  | 0, _ => []
  | fuel + 1, i =>
    if i < bound then (i, 8) :: (i + 8, 8) :: reads16Loop bound fuel (i + 16) else []

/-- Word reads of `lj_str_hash_16_128`: the stride loop plus the two tail
    reads at `len - 16` and `len - 8`. -/
def reads_16_128 (len : Nat) : List (Nat × Nat) :=
  reads16Loop (len - 16) (len - 16) 0 ++ [(len - 16, 8), (len - 8, 8)]

/-- Whether byte index `i` is covered by one of the reads in `rs`. -/
def covered (rs : List (Nat × Nat)) (i : Nat) : Bool :=
  rs.any fun r => decide (r.1 ≤ i) && decide (i < r.1 + r.2)

/-- The reads of the routine the dispatcher `lj_str_hash_crc32` selects for
    a length below 128 (bands `[1,4)`, `[4,16)`, `[16,128)`). -/
def readsDispatchShort (len : Nat) : List (Nat × Nat) :=
  if 16 ≤ len then reads_16_128 len
  else if 4 ≤ len then reads_4_16 len
  else reads_1_4 len

/-- Start offsets of the sampled 8-byte reads of `lj_str_hash_128_above`
    (the 7 chunk-pair iterations and the special last chunk pair; the
    unconditional head and tail reads are listed separately). -/
def sampled128 (t : Nat → Nat → Nat) (len : Nat) : List Nat :=
  ((List.range 7).flatMap fun j =>
    [j * (len / 16) + getRandomPos t (log2_floor (len / 16)) 0,
     j * (len / 16) + len / 16 + getRandomPos t (log2_floor (len / 16)) 1]) ++
  [7 * (len / 16) + getRandomPos t (log2_floor (len / 16)) 0,
   7 * (len / 16) + len / 16 - 8 - getRandomPos t (log2_floor (len / 16)) 1]

/-- All 8-byte read start offsets of `lj_str_hash_128_above`, as exact
    integers (the special last-pair offset `chunk_ptr + chunk_sz - 8 - pos2`
    is kept in `ℤ`, mirroring the stepwise C pointer arithmetic, so that a
    negative offset would be visible). -/
def reads128 (t : Nat → Nat → Nat) (len : Nat) : List Int :=
  ((List.range 7).flatMap fun j =>
    [((j * (len / 16) + getRandomPos t (log2_floor (len / 16)) 0 : Nat) : Int),
     ((j * (len / 16) + len / 16 + getRandomPos t (log2_floor (len / 16)) 1 : Nat) : Int)]) ++
  [((7 * (len / 16) + getRandomPos t (log2_floor (len / 16)) 0 : Nat) : Int),
   ((7 * (len / 16) + len / 16 : Nat) : Int) - 8 -
     ((getRandomPos t (log2_floor (len / 16)) 1 : Nat) : Int),
   (0 : Int), ((len : Nat) : Int) - 8]

/-! ### The one-time selector `lj_init_strhashfn` -/

/-- The two hash functions the selector can publish. -/
inductive StrHashFn where
  | crc32 : StrHashFn
  | orig : StrHashFn
deriving DecidableEq

/-- State of the one-time selection: the static `strhashfn` variable (`none`
    when still unset), the number of times `lj_str_hash_init_random` has
    run, and the `g->strhashfn` slot last published. -/
structure HashInitState where
  strhashfn : Option StrHashFn
  randomRuns : Nat
  gfn : Option StrHashFn
deriving DecidableEq

/-- One call of `lj_init_strhashfn(g)`, with the CRC32 capability probe
    result `support`: if the static selection is unset, probe and set it
    (running `lj_str_hash_init_random` only on the hardware path), then
    publish the selection to `g->strhashfn`. -/
def lj_init_strhashfn (support : Bool) (st : HashInitState) : HashInitState :=
  if st.strhashfn = none then
    if support then
      { strhashfn := some StrHashFn.crc32, randomRuns := st.randomRuns + 1,
        gfn := some StrHashFn.crc32 }
    else
      { strhashfn := some StrHashFn.orig, randomRuns := st.randomRuns,
        gfn := some StrHashFn.orig }
  else { st with gfn := st.strhashfn }

/-! ### Helper lemmas -/

/-- Masking with `POW2_MASK(n) = 2^n - 1` bounds a value below `2^n`. -/
lemma and_mask_lt (x n : Nat) : x &&& (2 ^ n - 1) < 2 ^ n :=
  lt_of_le_of_lt Nat.and_le_right (Nat.sub_lt (Nat.pow_pos (by norm_num)) Nat.one_pos)

/-- `updRow` preserves the per-row upper bound when the new values fit. -/
lemma updRow_lt {t : Nat → Nat → Nat} (ht : ∀ o j, t o j < 2 ^ (o + 1)) {i x y : Nat}
    (hx : x < 2 ^ (i + 1)) (hy : y < 2 ^ (i + 1)) :
    ∀ o j, updRow t i x y o j < 2 ^ (o + 1) := by
  intro o j
  unfold updRow
  by_cases h : o = i
  · subst h
    simp only [if_pos rfl]
    by_cases hj : j % 2 = 0 <;> simp [hj, hx, hy]
  · simpa [h] using ht o j

/-- Every cell of a table produced by the filling loops stays below
    `2^(row+1)`, whatever the random stream, because every written value is
    masked with `POW2_MASK(row+1)`. -/
lemma fillRows_lt (rand : Nat → Nat) (rml : Nat) :
    ∀ (n i k : Nat) (t : Nat → Nat → Nat),
      (∀ o j, t o j < 2 ^ (o + 1)) →
      ∀ o j, fillRows rand rml n i k t o j < 2 ^ (o + 1) := by
  intro n
  induction n with
  | zero => intro i k t ht o j; exact ht o j
  | succ m ih =>
    intro i k t ht o j
    show fillRows rand rml (m + 1) i k t o j < 2 ^ (o + 1)
    rw [fillRows]
    split
    · exact ih (i + 1) (k + 2) _
        (updRow_lt ht (and_mask_lt _ _) (and_mask_lt _ _)) o j
    · exact ih (i + 1) (k + 2) _
        (updRow_lt ht (and_mask_lt _ _) (and_mask_lt _ _)) o j

/-- Rows below 3 are never touched by the filling loops (which start at
    row 3), so they keep their initial zero values. -/
lemma fillRows_zero (rand : Nat → Nat) (rml : Nat) :
    ∀ (n i k : Nat) (t : Nat → Nat → Nat), 3 ≤ i →
      (∀ o j, o < 3 → t o j = 0) →
      ∀ o j, o < 3 → fillRows rand rml n i k t o j = 0 := by
  intro n
  induction n with
  | zero => intro i k t _ ht o j ho; exact ht o j ho
  | succ m ih =>
    intro i k t hi ht o j ho
    show fillRows rand rml (m + 1) i k t o j = 0
    rw [fillRows]
    have hne : ∀ x y, ∀ o j, o < 3 → updRow t i x y o j = 0 := by
      intro x y o j hlt
      unfold updRow
      have : o ≠ i := by omega
      simpa [this] using ht o j hlt
    split
    · exact ih (i + 1) (k + 2) _ (by omega) (hne _ _) o j ho
    · exact ih (i + 1) (k + 2) _ (by omega) (hne _ _) o j ho

/-- For table indices 1..127 the stored entry `v` satisfies
    `2^v ≤ m < 2^(v+1)` after the uint32 conversion of the return. -/
lemma log2_tab_correct : ∀ m, m < 128 → 1 ≤ m →
    2 ^ u32ofInt (log2_tab.getD m 0) ≤ m ∧
      m < 2 ^ (u32ofInt (log2_tab.getD m 0) + 1) := by decide

/-- For indices 1..127 the table entry is a small nonnegative integer, so
    adding the shift compensation 8, 16 or 24 before the uint32 conversion
    is the same as adding it after. -/
lemma log2_tab_shift : ∀ m, m < 128 → 1 ≤ m →
    u32ofInt (log2_tab.getD m 0 + 8) = u32ofInt (log2_tab.getD m 0) + 8 ∧
      u32ofInt (log2_tab.getD m 0 + 16) = u32ofInt (log2_tab.getD m 0) + 16 ∧
      u32ofInt (log2_tab.getD m 0 + 24) = u32ofInt (log2_tab.getD m 0) + 24 := by decide

/-- Transport a two-sided power-of-two bound on `n / 2^e` to one on `n`. -/
lemma div_pow_sandwich {n q t e : Nat} (hq : q = n / 2 ^ e)
    (h1 : 2 ^ t ≤ q) (h2 : q < 2 ^ (t + 1)) :
    2 ^ (t + e) ≤ n ∧ n < 2 ^ (t + 1 + e) := by
  subst hq
  constructor
  · calc 2 ^ (t + e) = 2 ^ t * 2 ^ e := pow_add 2 t e
    _ ≤ n / 2 ^ e * 2 ^ e := Nat.mul_le_mul_right _ h1
    _ ≤ n := Nat.div_mul_le_self n (2 ^ e)
  · have hn : n < (n / 2 ^ e + 1) * 2 ^ e :=
      (Nat.div_lt_iff_lt_mul (Nat.pow_pos (by norm_num))).mp (Nat.lt_succ_self _)
    calc n < (n / 2 ^ e + 1) * 2 ^ e := hn
    _ ≤ 2 ^ (t + 1) * 2 ^ e := Nat.mul_le_mul_right _ (by omega)
    _ = 2 ^ (t + 1 + e) := (pow_add 2 (t + 1) e).symm

/-- `log2_floor` returns a value `v` with `2^v ≤ n < 2^(v+1)` on the whole
    `uint32_t` range above 0, including the ranges decided through the
    shifted table lookups whose entry is -1. -/
lemma log2_floor_bounds (n : Nat) (hn1 : 1 ≤ n) (hn2 : n < 2 ^ 32) :
    2 ^ log2_floor n ≤ n ∧ n < 2 ^ (log2_floor n + 1) := by
  have h256 : n / 256 = n / 2 ^ 8 := by norm_num
  have h65536 : n / 65536 = n / 2 ^ 16 := by norm_num
  have h16777216 : n / 16777216 = n / 2 ^ 24 := by norm_num
  unfold log2_floor
  split_ifs with hA hB hC hD
  · exact log2_tab_correct n (by omega) hn1
  · rcases Nat.eq_zero_or_pos (n / 256) with hq | hq
    · have hlt : n < 256 := by
        by_contra hcon
        push_neg at hcon
        have : 1 ≤ n / 256 := (Nat.le_div_iff_mul_le (by norm_num)).mpr (by omega)
        omega
      rw [hq]
      have hval : u32ofInt (log2_tab.getD 0 0 + 8) = 7 := by decide
      rw [hval]
      have p7 : (2 : Nat) ^ 7 = 128 := by norm_num
      have p8 : (2 : Nat) ^ (7 + 1) = 256 := by norm_num
      omega
    · obtain ⟨hb1, hb2⟩ := log2_tab_correct (n / 256) (by omega) hq
      rw [(log2_tab_shift (n / 256) (by omega) hq).1]
      exact div_pow_sandwich h256 hb1 hb2
  · rcases Nat.eq_zero_or_pos (n / 65536) with hq | hq
    · have hlt : n < 65536 := by
        by_contra hcon
        push_neg at hcon
        have : 1 ≤ n / 65536 := (Nat.le_div_iff_mul_le (by norm_num)).mpr (by omega)
        omega
      have hge : 128 * 256 ≤ n := (Nat.le_div_iff_mul_le (by norm_num)).mp (by omega)
      rw [hq]
      have hval : u32ofInt (log2_tab.getD 0 0 + 16) = 15 := by decide
      rw [hval]
      have p15 : (2 : Nat) ^ 15 = 32768 := by norm_num
      have p16 : (2 : Nat) ^ (15 + 1) = 65536 := by norm_num
      omega
    · obtain ⟨hb1, hb2⟩ := log2_tab_correct (n / 65536) (by omega) hq
      rw [(log2_tab_shift (n / 65536) (by omega) hq).2.1]
      exact div_pow_sandwich h65536 hb1 hb2
  · rcases Nat.eq_zero_or_pos (n / 16777216) with hq | hq
    · have hlt : n < 16777216 := by
        by_contra hcon
        push_neg at hcon
        have : 1 ≤ n / 16777216 := (Nat.le_div_iff_mul_le (by norm_num)).mpr (by omega)
        omega
      have hge : 128 * 65536 ≤ n := (Nat.le_div_iff_mul_le (by norm_num)).mp (by omega)
      rw [hq]
      have hval : u32ofInt (log2_tab.getD 0 0 + 24) = 23 := by decide
      rw [hval]
      have p23 : (2 : Nat) ^ 23 = 8388608 := by norm_num
      have p24 : (2 : Nat) ^ (23 + 1) = 16777216 := by norm_num
      omega
    · obtain ⟨hb1, hb2⟩ := log2_tab_correct (n / 16777216) (by omega) hq
      rw [(log2_tab_shift (n / 16777216) (by omega) hq).2.2]
      exact div_pow_sandwich h16777216 hb1 hb2
  · have hge : 128 * 16777216 ≤ n := (Nat.le_div_iff_mul_le (by norm_num)).mp (by omega)
    have p31 : (2 : Nat) ^ 31 = 2147483648 := by norm_num
    have p32 : (2 : Nat) ^ (31 + 1) = 4294967296 := by norm_num
    have h32 : (2 : Nat) ^ 32 = 4294967296 := by norm_num
    omega

/-- Every cell of a table produced by `lj_str_hash_init_random` is below
    `2^(order+1)`, for every random stream and `RAND_MAX`. -/
lemma init_random_lt (rand : Nat → Nat) (randMax : Nat) :
    ∀ o j, lj_str_hash_init_random rand randMax o j < 2 ^ (o + 1) := by
  intro o j
  unfold lj_str_hash_init_random
  exact fillRows_lt rand (randMaxLog randMax) 28 3 0 _
    (fun _ _ => Nat.pow_pos (by norm_num)) o j

/-- An 8-byte word read only depends on the eight bytes it spans. -/
lemma readU64_congr {s t : Nat → Nat} {off : Nat}
    (h : ∀ k, k < 8 → s (off + k) = t (off + k)) : readU64 s off = readU64 t off := by
  have h0 : s off = t off := by simpa using h 0 (by norm_num)
  have h1 := h 1 (by norm_num)
  have h2 := h 2 (by norm_num)
  have h3 := h 3 (by norm_num)
  have h4 := h 4 (by norm_num)
  have h5 := h 5 (by norm_num)
  have h6 := h 6 (by norm_num)
  have h7 := h 7 (by norm_num)
  simp [readU64, byteAt, h0, h1, h2, h3, h4, h5, h6, h7]

/-- The chunk-pair loop of `lj_str_hash_128_above` only depends on the
    byte spans of the reads it performs. -/
lemma hash128Loop_congr {s t : Nat → Nat} (c pos1 pos2 : Nat) :
    ∀ (n base a b : Nat),
      (∀ j, j < n → ∀ k, k < 8 →
        s (base + j * c + pos1 + k) = t (base + j * c + pos1 + k)) →
      (∀ j, j < n → ∀ k, k < 8 →
        s (base + j * c + c + pos2 + k) = t (base + j * c + c + pos2 + k)) →
      hash128Loop s c pos1 pos2 n base a b = hash128Loop t c pos1 pos2 n base a b := by
  intro n
  induction n with
  | zero => intro base a b _ _; rfl
  | succ m ih =>
    intro base a b ha hb
    have e1 : readU64 s (base + pos1) = readU64 t (base + pos1) :=
      readU64_congr fun k hk => by simpa using ha 0 (by omega) k hk
    have e2 : readU64 s (base + c + pos2) = readU64 t (base + c + pos2) :=
      readU64_congr fun k hk => by simpa using hb 0 (by omega) k hk
    simp only [hash128Loop]
    rw [e1, e2]
    exact ih (base + c) _ _
      (fun j hj k hk => by
        have h := ha (j + 1) (by omega) k hk
        have e : base + (j + 1) * c + pos1 + k = base + c + j * c + pos1 + k := by ring
        rwa [e] at h)
      (fun j hj k hk => by
        have h := hb (j + 1) (by omega) k hk
        have e : base + (j + 1) * c + c + pos2 + k = base + c + j * c + c + pos2 + k := by
          ring
        rwa [e] at h)

/-! ### Claim theorems -/

/-- C6: with a fixed sample-position table, two buffers of the same length
    ≥ 128 that agree on the first 16 bytes, the last 16 bytes and every byte
    span of the sampled 8-byte reads hash to the same value under
    `lj_str_hash_128_above` — mutating interior bytes outside the head,
    tail and sampled spans never changes the hash. -/
theorem hash128_interior_stability (t : Nat → Nat → Nat) (s sp : Nat → Nat) (len : Nat)
    (hlen : 128 ≤ len)
    (hhead : ∀ i, i < 16 → s i = sp i)
    (htail : ∀ i, i < len → len - 16 ≤ i → s i = sp i)
    (hsamp : ∀ off ∈ sampled128 t len, ∀ k, k < 8 → s (off + k) = sp (off + k)) :
    lj_str_hash_128_above t s len = lj_str_hash_128_above t sp len := by
  have hmemA : ∀ j, j < 7 →
      (j * (len / 16) + getRandomPos t (log2_floor (len / 16)) 0) ∈
        sampled128 t len := by
    intro j hj
    unfold sampled128
    exact List.mem_append_left _
      (List.mem_flatMap.mpr ⟨j, List.mem_range.mpr hj, by simp⟩)
  have hmemB : ∀ j, j < 7 →
      (j * (len / 16) + len / 16 +
          getRandomPos t (log2_floor (len / 16)) 1) ∈ sampled128 t len := by
    intro j hj
    unfold sampled128
    exact List.mem_append_left _
      (List.mem_flatMap.mpr ⟨j, List.mem_range.mpr hj, by simp⟩)
  have hmemC : (7 * (len / 16) +
      getRandomPos t (log2_floor (len / 16)) 0) ∈ sampled128 t len := by
    unfold sampled128
    exact List.mem_append_right _ (by simp)
  have hmemD : (7 * (len / 16) + len / 16 - 8 -
      getRandomPos t (log2_floor (len / 16)) 1) ∈ sampled128 t len := by
    unfold sampled128
    exact List.mem_append_right _ (by simp)
  have hL : hash128Loop s (len / 16) (getRandomPos t (log2_floor (len / 16)) 0)
      (getRandomPos t (log2_floor (len / 16)) 1) 7 0
      (lj_crc32_u32 0 (len % M32)) 0 =
      hash128Loop sp (len / 16) (getRandomPos t (log2_floor (len / 16)) 0)
      (getRandomPos t (log2_floor (len / 16)) 1) 7 0
      (lj_crc32_u32 0 (len % M32)) 0 :=
    hash128Loop_congr _ _ _ 7 0 _ _
      (fun j hj k hk => by simpa using hsamp _ (hmemA j hj) k hk)
      (fun j hj k hk => by
        have h := hsamp _ (hmemB j hj) k hk
        simpa [Nat.add_assoc] using h)
  have hw1 : readU64 s (7 * (len / 16) +
      getRandomPos t (log2_floor (len / 16)) 0) =
      readU64 sp (7 * (len / 16) + getRandomPos t (log2_floor (len / 16)) 0) :=
    readU64_congr fun k hk => hsamp _ hmemC k hk
  have hw2 : readU64 s (7 * (len / 16) + len / 16 - 8 -
      getRandomPos t (log2_floor (len / 16)) 1) =
      readU64 sp (7 * (len / 16) + len / 16 - 8 -
        getRandomPos t (log2_floor (len / 16)) 1) :=
    readU64_congr fun k hk => hsamp _ hmemD k hk
  have hw0 : readU64 s 0 = readU64 sp 0 :=
    readU64_congr fun k hk => hhead (0 + k) (by omega)
  have hwt : readU64 s (len - 8) = readU64 sp (len - 8) :=
    readU64_congr fun k hk => htail (len - 8 + k) (by omega) (by omega)
  show lj_str_hash_128_above t s len = lj_str_hash_128_above t sp len
  simp only [lj_str_hash_128_above]
  rw [hL, hw1, hw2, hw0, hwt]

/-- Witness for C6: table all zero, length 128; flipping byte 100 (outside
    the head, the tail and every sampled span) leaves the hash unchanged. -/
theorem hash128_interior_stability_witness :
    lj_str_hash_128_above (fun _ _ => 0) (fun _ => 0) 128 =
      lj_str_hash_128_above (fun _ _ => 0) (fun i => if i = 100 then 1 else 0) 128 :=
  hash128_interior_stability (fun _ _ => 0) (fun _ => 0)
    (fun i => if i = 100 then 1 else 0) 128
    (by norm_num) (by decide) (by decide) (by decide)

/-- C1: for every sample-position table state produced by
    `lj_str_hash_init_random` (any random stream, any `RAND_MAX`) and every
    `uint32_t` length ≥ 128, every 8-byte word read performed by
    `lj_str_hash_128_above` starts at a nonnegative offset and ends no later
    than byte `len - 1` — the chunk-pair loop, the special last chunk pair
    and the head/tail folds all stay inside the buffer. -/
theorem reads128_in_bounds (rand : Nat → Nat) (randMax len : Nat)
    (hlo : 128 ≤ len) (hhi : len < 2 ^ 32) :
    ∀ off ∈ reads128 (lj_str_hash_init_random rand randMax) len,
      0 ≤ off ∧ off + 8 ≤ (len : Int) := by
  intro off hoff
  have hc8 : 8 ≤ len / 16 := (Nat.le_div_iff_mul_le (by norm_num)).mpr (by omega)
  have hc2 : len / 16 < 2 ^ 32 := lt_of_le_of_lt (Nat.div_le_self _ _) hhi
  have hord : 2 ^ log2_floor (len / 16) ≤ len / 16 :=
    (log2_floor_bounds (len / 16) (by omega) hc2).1
  have hpow : 2 ^ (log2_floor (len / 16) + 1) ≤ 2 * (len / 16) := by
    rw [pow_succ]
    calc 2 ^ log2_floor (len / 16) * 2 ≤ len / 16 * 2 := Nat.mul_le_mul_right 2 hord
    _ = 2 * (len / 16) := Nat.mul_comm _ _
  have hp1 : getRandomPos (lj_str_hash_init_random rand randMax)
      (log2_floor (len / 16)) 0 < 2 * (len / 16) :=
    lt_of_lt_of_le (init_random_lt rand randMax _ _) hpow
  have hp2 : getRandomPos (lj_str_hash_init_random rand randMax)
      (log2_floor (len / 16)) 1 < 2 * (len / 16) :=
    lt_of_lt_of_le (init_random_lt rand randMax _ _) hpow
  have hmul : len / 16 * 16 ≤ len := Nat.div_mul_le_self len 16
  simp only [reads128, List.mem_append, List.mem_flatMap, List.mem_range,
    List.mem_cons, List.mem_singleton, List.not_mem_nil, or_false] at hoff
  rcases hoff with ⟨j, hj, h | h⟩ | h | h | h | h
  · have hjc : j * (len / 16) ≤ 6 * (len / 16) := Nat.mul_le_mul_right _ (by omega)
    generalize hg : j * (len / 16) = m at h hjc
    subst h
    exact ⟨Int.natCast_nonneg _, by omega⟩
  · have hjc : j * (len / 16) ≤ 6 * (len / 16) := Nat.mul_le_mul_right _ (by omega)
    generalize hg : j * (len / 16) = m at h hjc
    subst h
    exact ⟨Int.natCast_nonneg _, by omega⟩
  · subst h
    exact ⟨Int.natCast_nonneg _, by omega⟩
  · subst h
    refine ⟨by omega, by omega⟩
  · subst h
    refine ⟨le_refl 0, by omega⟩
  · subst h
    refine ⟨by omega, by omega⟩

/-- Witness for C1: the all-zero stream, `RAND_MAX = 1`, length 128; the
    first listed read offset is in bounds. -/
theorem reads128_in_bounds_witness :
    0 ≤ (0 : Int) ∧ (0 : Int) + 8 ≤ ((128 : Nat) : Int) :=
  reads128_in_bounds (fun _ => 0) 1 128 (by norm_num) (by norm_num) 0 (by decide)

/-- C10: on the whole positive `uint32_t` range, `log2_floor` computes
    `floor(log2 n)` (every case, including the ranges that go through the
    -1 table entry with a shift compensation of 8, 16 or 24), and in
    particular returns 31 for every `n ≥ 2^31`. -/
theorem log2_floor_correct (n : Nat) (hn1 : 1 ≤ n) (hn2 : n < 2 ^ 32) :
    log2_floor n = Nat.log2 n ∧ (2 ^ 31 ≤ n → log2_floor n = 31) := by
  obtain ⟨hl, hu⟩ := log2_floor_bounds n hn1 hn2
  have hn0 : n ≠ 0 := by omega
  have e1 : log2_floor n ≤ Nat.log2 n := (Nat.le_log2 hn0).mpr hl
  have e2 : Nat.log2 n < log2_floor n + 1 := (Nat.log2_lt hn0).mpr hu
  refine ⟨by omega, fun hbig => ?_⟩
  have hv1 : 31 ≤ log2_floor n := by
    by_contra hlt
    push_neg at hlt
    have hle : 2 ^ (log2_floor n + 1) ≤ 2 ^ 31 :=
      Nat.pow_le_pow_right (by norm_num) (by omega)
    omega
  have hv2 : log2_floor n ≤ 31 := by
    by_contra hgt
    push_neg at hgt
    have hle : 2 ^ 32 ≤ 2 ^ log2_floor n :=
      Nat.pow_le_pow_right (by norm_num) (by omega)
    omega
  omega

/-- Witness for C10 at `n = 300` (a value decided through the -1 entry:
    `300 >> 8 = 1`, `log2_tab[1] = 0`, result `0 + 8 = 8`). -/
theorem log2_floor_correct_witness :
    log2_floor 300 = Nat.log2 300 ∧ (2 ^ 31 ≤ 300 → log2_floor 300 = 31) :=
  log2_floor_correct 300 (by norm_num) (by norm_num)

/-- C2: for every length 1..127 and every byte index below that length, the
    routine the dispatcher selects for that length performs a byte or word
    read whose span covers the index — no byte of a short or medium string
    goes unread. -/
theorem short_coverage : ∀ L, L < 128 → 1 ≤ L → ∀ i, i < L →
    covered (readsDispatchShort L) i = true := by decide

/-- Witness for C2 at length 20, index 5. -/
theorem short_coverage_witness : covered (readsDispatchShort 20) 5 = true :=
  short_coverage 20 (by decide) (by decide) 5 (by decide)

set_option maxRecDepth 100000 in
/-- C5 counterexample: the claim's assignment of the two tail words (last 8
    bytes into `h1`, the 8 before into `h2`) disagrees with the code's tail
    folds on a concrete 16-byte buffer and accumulator pair — the code folds
    the word at `len - 16` into `h1` and the last 8 bytes into `h2`. -/
theorem tail_folds_cex :
    hash16Tail (fun i => i) 16 (lj_crc32_u32 0 16, 0) ≠
      hash16TailSpec (fun i => i) 16 (lj_crc32_u32 0 16, 0) := by decide

/-- C5 amended: after the stride loop, the first accumulator `h1` absorbs
    the word at `len - 16` (bytes len-16..len-9) and the second accumulator
    `h2` absorbs the buffer's last 8 bytes (len-8..len-1), and the routine's
    result is the final `lj_crc32_u32` combine of exactly these two
    accumulators. -/
theorem tail_folds_amended (s : Nat → Nat) (len : Nat) (p : Nat × Nat)
    (hlo : 16 ≤ len) (hhi : len < 128) :
    (hash16Tail s len p).1 = lj_crc32_u64 p.1 (readU64 s (len - 16)) ∧
      (hash16Tail s len p).2 = lj_crc32_u64 p.2 (readU64 s (len - 8)) ∧
      lj_str_hash_16_128 s len =
        lj_crc32_u32
          (hash16Tail s len
            (hash16Loop s (len - 16) (len - 16) 0 (lj_crc32_u32 0 (len % M32)) 0)).1
          (hash16Tail s len
            (hash16Loop s (len - 16) (len - 16) 0 (lj_crc32_u32 0 (len % M32)) 0)).2 :=
  ⟨rfl, rfl, rfl⟩

/-- Witness for the amended C5 at length 16 on a concrete buffer and
    accumulator pair. -/
theorem tail_folds_amended_witness :
    (hash16Tail (fun i => i) 16 (1, 2)).1 = lj_crc32_u64 1 (readU64 (fun i => i) (16 - 16)) ∧
      (hash16Tail (fun i => i) 16 (1, 2)).2 = lj_crc32_u64 2 (readU64 (fun i => i) (16 - 8)) ∧
      lj_str_hash_16_128 (fun i => i) 16 =
        lj_crc32_u32
          (hash16Tail (fun i => i) 16
            (hash16Loop (fun i => i) (16 - 16) (16 - 16) 0 (lj_crc32_u32 0 (16 % M32)) 0)).1
          (hash16Tail (fun i => i) 16
            (hash16Loop (fun i => i) (16 - 16) (16 - 16) 0 (lj_crc32_u32 0 (16 % M32)) 0)).2 :=
  tail_folds_amended (fun i => i) 16 (1, 2) (by decide) (by decide)

/-- C8: the portable fallback `lj_str_hash_orig` returns exactly 0 on length
    0 for every buffer, and its value at length 0 does not depend on the
    buffer at all (no byte of the buffer is read on that path). -/
theorem orig_len0 (s t : Nat → Nat) :
    lj_str_hash_orig s 0 = 0 ∧ lj_str_hash_orig s 0 = lj_str_hash_orig t 0 := by
  have hs : lj_str_hash_orig s 0 = 0 := rfl
  have ht : lj_str_hash_orig t 0 = 0 := rfl
  exact ⟨hs, hs.trans ht.symm⟩

/-- C7: for lengths 1..3 the portable fallback and the accelerated
    smallest-band routine compute the same value: both mix the first, middle
    and last byte with the length through the same three-round
    rotate/xor/subtract construction. -/
theorem orig_eq_1_4 (s : Nat → Nat) (len : Nat) (h1 : 1 ≤ len) (h2 : len ≤ 3) :
    lj_str_hash_orig s len = lj_str_hash_1_4 s len := by
  interval_cases len <;> rfl

/-- Witness for C7 at length 2. -/
theorem orig_eq_1_4_witness :
    lj_str_hash_orig (fun i => i + 7) 2 = lj_str_hash_1_4 (fun i => i + 7) 2 :=
  orig_eq_1_4 (fun i => i + 7) 2 (by decide) (by decide)

/-- C9: starting from an unset selection, one call of `lj_init_strhashfn`
    sets the static selection to the hardware or portable routine according
    to the probe, publishes it to `g->strhashfn`, runs
    `lj_str_hash_init_random` only on the hardware path, and every further
    call leaves the whole state unchanged (the selection is assigned at most
    once and never regresses). -/
theorem init_strhashfn_once (support : Bool) (st : HashInitState)
    (h : st.strhashfn = none) :
    (lj_init_strhashfn support st).strhashfn =
        some (if support then StrHashFn.crc32 else StrHashFn.orig) ∧
      (lj_init_strhashfn support st).gfn = (lj_init_strhashfn support st).strhashfn ∧
      (lj_init_strhashfn support st).randomRuns =
        st.randomRuns + (if support then 1 else 0) ∧
      ∀ n, (lj_init_strhashfn support)^[n] (lj_init_strhashfn support st) =
        lj_init_strhashfn support st := by
  have hstep : ∀ b (x : HashInitState), x.strhashfn ≠ none → x.gfn = x.strhashfn →
      lj_init_strhashfn b x = x := by
    intro b x hx hg
    obtain ⟨xf, xr, xg⟩ := x
    replace hx : xf ≠ none := hx
    replace hg : xg = xf := hg
    subst hg
    unfold lj_init_strhashfn
    rw [if_neg hx]
  cases support <;>
    refine ⟨by simp [lj_init_strhashfn, h], by simp [lj_init_strhashfn, h],
      by simp [lj_init_strhashfn, h], fun n => Function.iterate_fixed ?_ n⟩ <;>
    exact hstep _ _ (by simp [lj_init_strhashfn, h]) (by simp [lj_init_strhashfn, h])

/-- Witness for C9: hardware path from a fresh state; five further calls are
    the identity. -/
theorem init_strhashfn_once_witness :
    (lj_init_strhashfn true)^[5]
        (lj_init_strhashfn true ⟨none, 0, none⟩) =
      lj_init_strhashfn true ⟨none, 0, none⟩ :=
  (init_strhashfn_once true ⟨none, 0, none⟩ rfl).2.2.2 5

/-- C3: after `lj_str_hash_init_random`, for every order 0..30 and both
    slots, the table value is below `2^(order+1)`, and orders below 3 hold
    0 — for every random stream and every `RAND_MAX`. -/
theorem init_random_bounds (rand : Nat → Nat) (randMax : Nat) (order slot : Nat)
    (ho : order ≤ 30) (hs : slot ≤ 1) :
    lj_str_hash_init_random rand randMax order slot < 2 ^ (order + 1) ∧
      (order < 3 → lj_str_hash_init_random rand randMax order slot = 0) := by
  constructor
  · exact fillRows_lt rand (randMaxLog randMax) 28 3 0 _
      (fun o j => Nat.pow_pos (by norm_num)) order slot
  · exact fun h3 => fillRows_zero rand (randMaxLog randMax) 28 3 0 _
      (by omega) (fun _ _ _ => rfl) order slot h3

/-- Witness for C3 at order 5, slot 0, the all-zero stream, `RAND_MAX = 1`. -/
theorem init_random_bounds_witness :
    lj_str_hash_init_random (fun _ => 0) 1 5 0 < 2 ^ (5 + 1) ∧
      (5 < 3 → lj_str_hash_init_random (fun _ => 0) 1 5 0 = 0) :=
  init_random_bounds (fun _ => 0) 1 5 0 (by decide) (by decide)

/-- C4 counterexample: with `RAND_MAX = 2^31 - 1` (so every row below 31 is
    filled from a masked raw draw) and the all-zero random stream, the cell
    at order 3, slot 0 is 0, which is below the claimed band lower bound
    `2^3`. -/
theorem init_random_band_cex :
    ¬ (2 ^ 3 ≤ lj_str_hash_init_random (fun _ => 0) 2147483647 3 0) := by decide

/-- C4 amended: for orders 3..30 the cells are only guaranteed to lie in
    `[0, 2^(order+1))`; the band lower bound `2^order` is not guaranteed
    (a zero draw is masked to 0). -/
theorem init_random_upper_only (rand : Nat → Nat) (randMax : Nat) (order slot : Nat)
    (h3 : 3 ≤ order) (ho : order ≤ 30) (hs : slot ≤ 1) :
    lj_str_hash_init_random rand randMax order slot < 2 ^ (order + 1) :=
  fillRows_lt rand (randMaxLog randMax) 28 3 0 _
    (fun o j => Nat.pow_pos (by norm_num)) order slot

/-- Witness for the amended C4 at order 3, slot 1. -/
theorem init_random_upper_only_witness :
    lj_str_hash_init_random (fun k => k + 9) 2147483647 3 1 < 2 ^ (3 + 1) :=
  init_random_upper_only (fun k => k + 9) 2147483647 3 1 (by decide) (by decide) (by decide)

end LjStrHash
